import Mathlib

/-!
# Verification of the `generic-tasks` workflow core

Shallow embedding of `src/lib/task.ts`, `src/lib/pipeline.ts`,
`src/errors.ts` and `src/types.ts` of the `@wecandobetter/generic-tasks`
library.

Modelling decisions:
* JavaScript's in-place mutation of the shared `context` object is rendered
  as explicit state passing: `Task.run` / `Pipeline.run` return the final
  context next to the outcome, and `throw` is rendered with `Except`.
* `await` on a step only sequences execution, so the asynchronous step
  functions become plain functions `α → Context κ α ε → Except (Thrown κ α ε) α`
  (a step may read the context and may throw; per the step contract in the
  documentation a step does not append its own `StepRecord`s, so steps are
  modelled as not mutating the log).
* Data values get an abstract type `α`, step-thrown raw error values an
  abstract type `ε`, and the application-specific fields of the context an
  abstract type `κ`.
* A thrown JavaScript value is either a raw error or a `TaskError`
  (`instanceof TaskError` becomes the `Thrown.taskError` constructor);
  a `TaskError` carries its `code`, the context at throw time (split into
  the `extra` application fields and the `steps` log) and its `errors` list,
  exactly as `class TaskError extends AggregateError` stores them.
-/

namespace GenericTasks

/-- The `status` field of a step record: `"pending" | "success" | "failure"`
(from `BaseContext` in `src/types.ts`). -/
inductive Status where
  | pending
  | success
  | failure
deriving DecidableEq, Repr

mutual

/-- One entry of `context.steps` (the anonymous record type inside
`BaseContext` in `src/types.ts`): `name`, `status`, and the optional
`input`, `output` and `error` fields (`Option` renders the optional `?:`
fields, `none` standing for the field being absent/`undefined`). -/
inductive StepRecord (κ α ε : Type) where
  | mk (name : String) (status : Status) (input : Option α)
      (output : Option α) (error : Option (Thrown κ α ε)) : StepRecord κ α ε

/-- A thrown JavaScript value as seen by the `catch` blocks of the core:
either a raw error (anything that is not a `TaskError`) or a `TaskError`
from `src/errors.ts` with its `code`, its captured context (application
fields `extra` plus the `steps` log) and its `errors` list. -/
inductive Thrown (κ α ε : Type) where
  | raw (e : ε) : Thrown κ α ε
  | taskError (code : String) (extra : κ) (steps : List (StepRecord κ α ε))
      (errors : List (Thrown κ α ε)) : Thrown κ α ε

end

variable {κ α ε : Type}

/-- Field accessor for `StepRecord.name`. -/
def StepRecord.name : StepRecord κ α ε → String
  | .mk n _ _ _ _ => n

/-- Field accessor for `StepRecord.status`. -/
def StepRecord.status : StepRecord κ α ε → Status
  | .mk _ st _ _ _ => st

/-- Field accessor for `StepRecord.input`. -/
def StepRecord.input : StepRecord κ α ε → Option α
  | .mk _ _ i _ _ => i

/-- Field accessor for `StepRecord.output`. -/
def StepRecord.output : StepRecord κ α ε → Option α
  | .mk _ _ _ o _ => o

/-- Field accessor for `StepRecord.error`. -/
def StepRecord.error : StepRecord κ α ε → Option (Thrown κ α ε)
  | .mk _ _ _ _ e => e

/-- The assignment `record.input = v`. -/
def StepRecord.setInput (v : α) : StepRecord κ α ε → StepRecord κ α ε
  | .mk n st _ o e => .mk n st (some v) o e

/-- The assignment `record.status = st`. -/
def StepRecord.setStatus (st : Status) : StepRecord κ α ε → StepRecord κ α ε
  | .mk n _ i o e => .mk n st i o e

/-- The assignment `record.output = v`. -/
def StepRecord.setOutput (v : α) : StepRecord κ α ε → StepRecord κ α ε
  | .mk n st i _ e => .mk n st i (some v) e

/-- The assignment `record.error = e`. -/
def StepRecord.setError (th : Thrown κ α ε) : StepRecord κ α ε → StepRecord κ α ε
  | .mk n st i o _ => .mk n st i o (some th)

/-- The JavaScript test `error instanceof TaskError`. -/
def Thrown.isTaskError : Thrown κ α ε → Bool
  | .taskError _ _ _ _ => true
  | .raw _ => false

/-- The `errors` list an `AggregateError` carries: a `TaskError`'s wrapped
errors (the `errors` constructor argument of `TaskError` in
`src/errors.ts`); a raw error value has none. -/
def Thrown.errors : Thrown κ α ε → List (Thrown κ α ε)
  | .raw _ => []
  | .taskError _ _ _ es => es

/-- The shared run context (`BaseContext` in `src/types.ts`): the mandatory
`steps` log plus the open-ended application-specific fields, collected in
`extra`. -/
structure Context (κ α ε : Type) where
  extra : κ
  steps : List (StepRecord κ α ε)

/-- A step of a task (`Step` in `src/types.ts`): a named async function
`(input, context) => output` that may throw.  JavaScript functions carry
their `name`, which `Task.run` copies into the step's record. -/
structure Step (κ α ε : Type) where
  name : String
  fn : α → Context κ α ε → Except (Thrown κ α ε) α

/-- A task (`class Task` in `src/lib/task.ts`): a `name` and an ordered
list of steps. -/
structure Task (κ α ε : Type) where
  name : String
  steps : List (Step κ α ε)

/-- The `Task` constructor, taking `TaskOptions {name, steps?}`:
`if (steps?.length) this.steps.push(...steps)`, so an absent (`none`) or
empty steps option leaves the step list empty; the constructor never
throws. -/
def Task.ofOptions (name : String) (steps : Option (List (Step κ α ε))) :
    Task κ α ε :=
  ⟨name, steps.getD []⟩

/-- In-place update of the last element of a list: the JavaScript pattern
`arr[arr.length - 1] = ...` used by `Task.run` on `context.steps`.  On the
empty list it is the identity (`Task.run` only uses it after having pushed
one record per step, so the list is never empty there). -/
def updateLast (f : StepRecord κ α ε → StepRecord κ α ε) :
    List (StepRecord κ α ε) → List (StepRecord κ α ε)
  | [] => []
  | [r] => [f r]
  | r :: r' :: rs => r :: updateLast f (r' :: rs)

/-- A fresh `{ name: step.name, status: "pending" }` record, as built by the
`this.steps.map(...)` in `Task.run`. -/
def pendingRecord (name : String) : StepRecord κ α ε :=
  .mk name .pending none none none

/-- The `for (const step of this.steps)` loop body of `Task.run`
(`src/lib/task.ts`): set `input` on the last record of the shared log, run
the step, then either mark that last record `success` and store its
`output`, or mark it `failure`, store the `error`, and throw — re-throwing
the error itself when it is a `TaskError`, otherwise wrapping it in
`new TaskError("FALL_THROUGH", context, [error])`. -/
def runSteps (ss : List (Step κ α ε)) (output : α) (ctx : Context κ α ε) :
    Except (Thrown κ α ε) α × Context κ α ε :=
  match ss with
  | [] => (.ok output, ctx)
  | s :: rest =>
    let ctx1 : Context κ α ε :=
      ⟨ctx.extra, updateLast (StepRecord.setInput output) ctx.steps⟩
    match s.fn output ctx1 with
    | .ok out =>
      let ctx2 : Context κ α ε :=
        ⟨ctx1.extra, updateLast (StepRecord.setStatus .success) ctx1.steps⟩
      let ctx3 : Context κ α ε :=
        ⟨ctx2.extra, updateLast (StepRecord.setOutput out) ctx2.steps⟩
      runSteps rest out ctx3
    | .error e =>
      let ctx2 : Context κ α ε :=
        ⟨ctx1.extra, updateLast (StepRecord.setStatus .failure) ctx1.steps⟩
      let ctx3 : Context κ α ε :=
        ⟨ctx2.extra, updateLast (StepRecord.setError e) ctx2.steps⟩
      (.error (if e.isTaskError then e
               else .taskError "FALL_THROUGH" ctx3.extra ctx3.steps [e]),
       ctx3)

/-- The context after the initial
`context.steps.push(...this.steps.map(step => ({name, status: "pending"})))`
of `Task.run`: one pending record per step, appended in step order. -/
def startContext (t : Task κ α ε) (ctx : Context κ α ε) : Context κ α ε :=
  ⟨ctx.extra, ctx.steps ++ t.steps.map (fun s => pendingRecord s.name)⟩

/-- `Task.run(input, context)` from `src/lib/task.ts`: push one pending
record per step, then run the steps in order threading the evolving value;
returns the `{ output }` (as `.ok`) or the thrown value (as `.error`),
together with the mutated context. -/
def Task.run (t : Task κ α ε) (input : α) (ctx : Context κ α ε) :
    Except (Thrown κ α ε) α × Context κ α ε :=
  runSteps t.steps input (startContext t ctx)

/-- `PipelineConfiguration` from `src/lib/pipeline.ts`: either a bare
`Task`, or a `{selector?, task}` object.  `withTask (some s) t` renders
`{selector: s, task: t}` and `withTask none t` renders `{task: t}` with no
`selector` key (so that `"selector" in task` is `false`); an object whose
`selector` key is present but set to `undefined` is not modelled (the
JavaScript code would then deliver `undefined` to the task). -/
inductive PipelineConfiguration (κ α ε : Type) where
  | bare (t : Task κ α ε)
  | withTask (selector : Option (α → Context κ α ε → α)) (t : Task κ α ε)

/-- `const taskFn = "task" in task ? task.task : task` in `Pipeline.run`. -/
def PipelineConfiguration.taskFn : PipelineConfiguration κ α ε → Task κ α ε
  | .bare t => t
  | .withTask _ t => t

/-- `const taskInput = "selector" in task ? task.selector?.(output, ctx) :
output` in `Pipeline.run` (for `withTask none` the `selector` key is
absent, so `"selector" in task` is `false` and the branch yields `output`). -/
def PipelineConfiguration.taskInput (c : PipelineConfiguration κ α ε)
    (output : α) (ctx : Context κ α ε) : α :=
  match c with
  | .bare _ => output
  | .withTask (some s) _ => s output ctx
  | .withTask none _ => output

/-- A pipeline (`class Pipeline` in `src/lib/pipeline.ts`): a `name` and an
ordered list of task configurations (the constructor's
`tasks.length` guard is a construction-time check and does not affect
`run`). -/
structure Pipeline (κ α ε : Type) where
  name : String
  tasks : List (PipelineConfiguration κ α ε)

/-- A thrown `PipelineError` from `src/errors.ts`: its `errors` list (the
`error` fields — possibly absent, hence `Option` — of the failure records
collected by `Pipeline.run`) and the captured context. -/
inductive PipelineThrown (κ α ε : Type) where
  | pipelineError (errors : List (Option (Thrown κ α ε)))
      (ctx : Context κ α ε) : PipelineThrown κ α ε

/-- The `errors` argument `Pipeline.run` passes to `new PipelineError`:
`ctx.steps.filter(step => step.status === "failure").map(step => step.error)`. -/
def failureErrors (ctx : Context κ α ε) : List (Option (Thrown κ α ε)) :=
  (ctx.steps.filter fun r => r.status = Status.failure).map StepRecord.error

/-- The `for (const task of this.tasks)` loop of `Pipeline.run`
(`src/lib/pipeline.ts`): run each configuration's task on the selected
input and the shared context; feed its output to the next configuration;
on any throw, build a `PipelineError` from the failure records of the
accumulated step log and the shared context and throw it, skipping the
remaining configurations. -/
def runTasks (tasks : List (PipelineConfiguration κ α ε)) (output : α)
    (ctx : Context κ α ε) :
    Except (PipelineThrown κ α ε) (α × Context κ α ε) :=
  match tasks with
  | [] => .ok (output, ctx)
  | c :: rest =>
    match (c.taskFn).run (c.taskInput output ctx) ctx with
    | (.ok taskOutput, ctx') => runTasks rest taskOutput ctx'
    | (.error _, ctx') => .error (.pipelineError (failureErrors ctx') ctx')

/-- `Pipeline.run(input, context)` from `src/lib/pipeline.ts`: build the
fresh shared context `{...context, ...{steps: []}}` — the caller's
application fields with a new empty step log (any `steps` field of the
caller is overridden) — then run the configurations in order.  On full
success it returns `{ output, context }` (as `.ok`); on failure it throws
a `PipelineError` (as `.error`). -/
def Pipeline.run (p : Pipeline κ α ε) (input : α) (callerCtx : Context κ α ε) :
    Except (PipelineThrown κ α ε) (α × Context κ α ε) :=
  runTasks p.tasks input ⟨callerCtx.extra, []⟩

/-! ## Basic lemmas about records and `updateLast` -/

@[simp] theorem StepRecord.status_setInput (r : StepRecord κ α ε) (v : α) :
    (r.setInput v).status = r.status := by cases r; rfl

@[simp] theorem StepRecord.status_setOutput (r : StepRecord κ α ε) (v : α) :
    (r.setOutput v).status = r.status := by cases r; rfl

@[simp] theorem StepRecord.status_setError (r : StepRecord κ α ε)
    (e : Thrown κ α ε) : (r.setError e).status = r.status := by cases r; rfl

@[simp] theorem StepRecord.status_setStatus (r : StepRecord κ α ε)
    (st : Status) : (r.setStatus st).status = st := by cases r; rfl

@[simp] theorem StepRecord.output_setOutput (r : StepRecord κ α ε) (v : α) :
    (r.setOutput v).output = some v := by cases r; rfl

@[simp] theorem StepRecord.error_setError (r : StepRecord κ α ε)
    (e : Thrown κ α ε) : (r.setError e).error = some e := by cases r; rfl

@[simp] theorem StepRecord.status_pendingRecord (name : String) :
    (pendingRecord (κ := κ) (α := α) (ε := ε) name).status = .pending := rfl

@[simp] theorem updateLast_nil (f : StepRecord κ α ε → StepRecord κ α ε) :
    updateLast f [] = [] := rfl

theorem updateLast_length (f : StepRecord κ α ε → StepRecord κ α ε)
    (l : List (StepRecord κ α ε)) : (updateLast f l).length = l.length := by
  induction l with
  | nil => rfl
  | cons a l ih =>
    cases l with
    | nil => rfl
    | cons b l' => simpa [updateLast] using ih

theorem updateLast_append (f : StepRecord κ α ε → StepRecord κ α ε)
    (xs : List (StepRecord κ α ε)) (x : StepRecord κ α ε) :
    updateLast f (xs ++ [x]) = xs ++ [f x] := by
  induction xs with
  | nil => rfl
  | cons a xs ih =>
    cases xs with
    | nil => rfl
    | cons b ys => simpa [updateLast] using ih

/-! ## Basic lemmas about `runSteps` -/

/-- `runSteps` never changes the application-specific context fields. -/
theorem runSteps_extra (ss : List (Step κ α ε)) (v : α) (ctx : Context κ α ε) :
    (runSteps ss v ctx).2.extra = ctx.extra := by
  induction ss generalizing v ctx with
  | nil => rfl
  | cons s rest ih =>
    simp only [runSteps]
    cases s.fn v ⟨ctx.extra, updateLast (StepRecord.setInput v) ctx.steps⟩ with
    | ok out => exact ih out _
    | error e => rfl

/-- `runSteps` never changes the length of the step log. -/
theorem runSteps_length (ss : List (Step κ α ε)) (v : α) (ctx : Context κ α ε) :
    (runSteps ss v ctx).2.steps.length = ctx.steps.length := by
  induction ss generalizing v ctx with
  | nil => rfl
  | cons s rest ih =>
    simp only [runSteps]
    cases s.fn v ⟨ctx.extra, updateLast (StepRecord.setInput v) ctx.steps⟩ with
    | ok out => simp [ih, updateLast_length]
    | error e => simp [updateLast_length]

/-- Splitting a run of steps: running `a ++ b` first runs `a`; when that
succeeds, `b` continues from `a`'s value and context, and when it throws
the run stops there (the steps of `b` never execute). -/
theorem runSteps_append (a b : List (Step κ α ε)) (v : α)
    (ctx : Context κ α ε) :
    runSteps (a ++ b) v ctx =
      (match runSteps a v ctx with
       | (Except.ok out, ctx') => runSteps b out ctx'
       | (Except.error e, ctx') => (Except.error e, ctx')) := by
  induction a generalizing v ctx with
  | nil => rfl
  | cons s rest ih =>
    simp only [List.cons_append, runSteps]
    cases s.fn v ⟨ctx.extra, updateLast (StepRecord.setInput v) ctx.steps⟩ with
    | ok out => exact ih out _
    | error e => rfl

/-- Definitional unfolding of one iteration of the step loop. -/
theorem runSteps_cons (s : Step κ α ε) (rest : List (Step κ α ε)) (v : α)
    (ctx : Context κ α ε) :
    runSteps (s :: rest) v ctx =
      match s.fn v ⟨ctx.extra, updateLast (StepRecord.setInput v) ctx.steps⟩ with
      | .ok out =>
        runSteps rest out ⟨ctx.extra,
          updateLast (StepRecord.setOutput out)
            (updateLast (StepRecord.setStatus .success)
              (updateLast (StepRecord.setInput v) ctx.steps))⟩
      | .error e =>
        (.error (if e.isTaskError then e
                 else .taskError "FALL_THROUGH" ctx.extra
                   (updateLast (StepRecord.setError e)
                     (updateLast (StepRecord.setStatus .failure)
                       (updateLast (StepRecord.setInput v) ctx.steps))) [e]),
         ⟨ctx.extra,
          updateLast (StepRecord.setError e)
            (updateLast (StepRecord.setStatus .failure)
              (updateLast (StepRecord.setInput v) ctx.steps))⟩) := rfl

/-- Master characterisation of the step loop on a log whose last record is
exposed (`front ++ [r]`): the loop only ever rewrites the last record; on a
throw the last record is marked `failure` with the raw error stored and the
thrown value is the re-thrown `TaskError` or the `FALL_THROUGH` wrap; on
success of a non-empty list of steps the last record is marked `success`
with the final output stored. -/
theorem runSteps_shape (ss : List (Step κ α ε)) (v : α) (extra : κ)
    (front : List (StepRecord κ α ε)) (r : StepRecord κ α ε) :
    ∃ r' : StepRecord κ α ε,
      (runSteps ss v ⟨extra, front ++ [r]⟩).2 = ⟨extra, front ++ [r']⟩ ∧
      (∀ th, (runSteps ss v ⟨extra, front ++ [r]⟩).1 = .error th →
        r'.status = .failure ∧ ∃ e, r'.error = some e ∧
          th = if e.isTaskError then e
               else .taskError "FALL_THROUGH" extra (front ++ [r']) [e]) ∧
      (∀ out, (runSteps ss v ⟨extra, front ++ [r]⟩).1 = .ok out →
        (ss = [] → r' = r ∧ out = v) ∧
        (ss ≠ [] → r'.status = .success ∧ r'.output = some out)) := by
  induction ss generalizing v r with
  | nil =>
    refine ⟨r, rfl, ?_, ?_⟩
    · intro th h
      exact absurd h (by simp [runSteps])
    · intro out h
      refine ⟨fun _ => ⟨rfl, ?_⟩, fun hne => absurd rfl hne⟩
      simp only [runSteps] at h
      exact (Except.ok.injEq _ _ ▸ h).symm
  | cons s rest ih =>
    rw [runSteps_cons]
    simp only [updateLast_append]
    cases hfn : s.fn v ⟨extra, front ++ [StepRecord.setInput v r]⟩ with
    | ok out =>
      simp only [hfn]
      obtain ⟨r', h1, herr, hok⟩ :=
        ih out (((r.setInput v).setStatus .success).setOutput out)
      refine ⟨r', h1, herr, ?_⟩
      intro out0 h0
      refine ⟨fun hc => absurd hc (List.cons_ne_nil s rest), fun _ => ?_⟩
      rcases hok out0 h0 with ⟨hnil, hcons⟩
      rcases eq_or_ne rest [] with hr | hr
      · rcases hnil hr with ⟨hr', hout⟩
        subst hr'
        subst hout
        simp
      · exact hcons hr
    | error e =>
      simp only [hfn]
      refine ⟨((r.setInput v).setStatus .failure).setError e, rfl, ?_, ?_⟩
      · intro th h
        refine ⟨by simp, e, by simp, ?_⟩
        exact (Except.error.injEq _ _ ▸ h).symm
      · intro out h
        exact absurd h (by simp)

/-! ## Concrete instances used to evaluate the code -/

/-- A step that returns its input plus one. -/
def demoStep (name : String) : Step Unit Nat String :=
  ⟨name, fun v _ => .ok (v + 1)⟩

/-- A step that throws the raw error `"boom"`. -/
def demoBoomStep : Step Unit Nat String :=
  ⟨"s2", fun _ _ => .error (.raw "boom")⟩

/-- A two-step task, both steps succeeding. -/
def demoTask2 : Task Unit Nat String :=
  ⟨"twoSteps", [demoStep "s1", demoStep "s2"]⟩

/-- A three-step task whose second step throws `Error("boom")`. -/
def boomTask : Task Unit Nat String :=
  ⟨"boomTask", [demoStep "s1", demoBoomStep, demoStep "s3"]⟩

/-! ## Claims about `Task.run` record bookkeeping -/

/-- **C1.** Evaluation of `Task.run` at the failing input for the claim
"after a successful run of a task with N steps all N appended records end
with status `success`": for the two-step task `demoTask2` run on input `0`
with a fresh context, the run succeeds with output `2` and the log does
grow by exactly two entries whose last carries the returned output, but the
statuses are `[pending, success]` — the first record never leaves
`pending`, because the loop in `Task.run` always rewrites
`context.steps[context.steps.length - 1]`, the *last* appended record,
instead of the record belonging to the current step. -/
theorem claim1_code_eval :
    (Task.run demoTask2 0 ⟨(), []⟩).1 = .ok 2 ∧
    ((Task.run demoTask2 0 ⟨(), []⟩).2.steps.map StepRecord.status) =
      [Status.pending, Status.success] ∧
    ((Task.run demoTask2 0 ⟨(), []⟩).2.steps.map StepRecord.output) =
      [none, some 2] :=
  ⟨rfl, rfl, rfl⟩

/-- **C3.** Evaluation of `Task.run` at the failing input for the claim
"each record's status/output/error is finalized strictly before the next
step begins": running only the first step of `demoTask2` (the state of the
log at the moment step 2 begins) leaves the *second* record with output
`some 1`, while after the full run that same record holds `some 2` — so
the record was rewritten after the next step began — and the first record
still has status `pending` after the run ends, so it is never finalized at
all.  (The per-step append count and the all-`pending` append before
execution do hold; see `startContext`.) -/
theorem claim3_code_eval :
    ((runSteps (demoTask2.steps.take 1) 0
        (startContext demoTask2 ⟨(), []⟩)).2.steps.map StepRecord.output) =
      [none, some 1] ∧
    ((Task.run demoTask2 0 ⟨(), []⟩).2.steps.map StepRecord.output) =
      [none, some 2] ∧
    ((Task.run demoTask2 0 ⟨(), []⟩).2.steps.map StepRecord.status) =
      [Status.pending, Status.success] :=
  ⟨rfl, rfl, rfl⟩

/-- **C2 (counterexample).** The claim says: when step 2 of 3 throws,
`context.steps[1].status === "failure"` and `context.steps[2]` is never
created.  Running `boomTask` (step 2 of 3 throws `"boom"`) on a fresh
context refutes both parts: record index 1 stays `pending` (the failure is
recorded on the *last* record, index 2) and all three records exist. -/
theorem claim2_counterexample :
    (((Task.run boomTask 0 ⟨(), []⟩).2.steps.map StepRecord.status)[1]? ≠
      some Status.failure) ∧
    ¬ ((Task.run boomTask 0 ⟨(), []⟩).2.steps.length < 3) ∧
    ((Task.run boomTask 0 ⟨(), []⟩).2.steps.map StepRecord.status) =
      [Status.pending, Status.pending, Status.failure] :=
  ⟨by decide, by decide, rfl⟩

/-- The freshly appended records all have status `pending`. -/
theorem map_status_pendings (l : List (Step κ α ε)) :
    (l.map fun s => pendingRecord (κ := κ) (α := α) (ε := ε) s.name).map
        StepRecord.status = List.replicate l.length Status.pending := by
  induction l with
  | nil => rfl
  | cons a l ih => simp [ih, List.replicate_succ]

/-- **C2 (amended).** On every failing task run the appended records'
statuses are `N-1` times `pending` followed by one `failure`: exactly one
appended record ends in `failure` — the *last* (N-th) appended record, not
the k-th as claimed — no appended record ends in `success`, and all `N`
records are created (so in the step-2-of-3 scenario `context.steps[2]`
*does* exist and carries the failure, while `context.steps[1]` stays
`pending`).  Moreover the raw error `e` of the failing step is stored on
that last record, and the thrown value is `e` itself when `e` is already a
`TaskError` and otherwise a `TaskError` with code `FALL_THROUGH` whose
`errors` list is exactly `[e]` — so in the boom scenario the thrown
`TaskError.errors` equals `[Error("boom")]`. -/
theorem claim2_amended_failure_statuses (t : Task κ α ε) (v : α)
    (ctx : Context κ α ε) (th : Thrown κ α ε)
    (hrun : (Task.run t v ctx).1 = .error th) :
    ((Task.run t v ctx).2.steps.map StepRecord.status =
      ctx.steps.map StepRecord.status ++
        (List.replicate (t.steps.length - 1) Status.pending ++
          [Status.failure])) ∧
    ∃ e, ((Task.run t v ctx).2.steps.getLast?).map StepRecord.error =
        some (some e) ∧
      th = if e.isTaskError then e
           else .taskError "FALL_THROUGH" (Task.run t v ctx).2.extra
             (Task.run t v ctx).2.steps [e] := by
  have hne : t.steps ≠ [] := by
    intro h
    rw [Task.run, h] at hrun
    simp [runSteps] at hrun
  have hPne : t.steps.map
      (fun s => pendingRecord (κ := κ) (α := α) (ε := ε) s.name) ≠ [] := by
    simpa using hne
  have hstart : startContext t ctx =
      ⟨ctx.extra,
        (ctx.steps ++ (t.steps.map fun s => pendingRecord s.name).dropLast) ++
          [(t.steps.map fun s => pendingRecord s.name).getLast hPne]⟩ := by
    rw [startContext, List.append_assoc, List.dropLast_append_getLast]
  obtain ⟨r', h2, herr, -⟩ :=
    runSteps_shape t.steps v ctx.extra
      (ctx.steps ++ (t.steps.map fun s => pendingRecord s.name).dropLast)
      ((t.steps.map fun s => pendingRecord s.name).getLast hPne)
  rw [Task.run, hstart] at hrun ⊢
  obtain ⟨hfail, e, herr2, hth⟩ := herr th hrun
  constructor
  · rw [h2]
    have hdl : ((t.steps.map fun s =>
        pendingRecord (κ := κ) (α := α) (ε := ε) s.name).dropLast).map
          StepRecord.status =
        List.replicate (t.steps.length - 1) Status.pending := by
      rw [List.map_dropLast, map_status_pendings, List.dropLast_replicate]
    simp only [List.map_append, List.append_assoc, List.map_cons,
      List.map_nil, hdl, hfail]
  · refine ⟨e, ?_, ?_⟩
    · rw [h2]
      simp [List.getLast?_concat, herr2]
    · rw [h2]
      exact hth

/-- The thrown value of the boom scenario, extracted from the run. -/
def demoBoomThrown : Thrown Unit Nat String :=
  match (Task.run boomTask 0 ⟨(), []⟩).1 with
  | .error e => e
  | .ok _ => .raw "unused"

/-- Witness for `claim2_amended_failure_statuses`: the boom scenario run
really throws, the statuses evaluate to `[pending, pending, failure]`, the
thrown value's `errors` list is exactly `[Error("boom")]`, and the
raw-error/wrap clause of the amended statement holds there. -/
theorem claim2_amended_witness :
    (Task.run boomTask 0 ⟨(), []⟩).1 = .error demoBoomThrown ∧
    demoBoomThrown.errors = [Thrown.raw "boom"] ∧
    ((Task.run boomTask 0 ⟨(), []⟩).2.steps.map StepRecord.status =
      [Status.pending, Status.pending, Status.failure]) ∧
    (∃ e, ((Task.run boomTask 0 ⟨(), []⟩).2.steps.getLast?).map
        StepRecord.error = some (some e) ∧
      demoBoomThrown = if e.isTaskError then e
        else .taskError "FALL_THROUGH"
          (Task.run boomTask 0 ⟨(), []⟩).2.extra
          (Task.run boomTask 0 ⟨(), []⟩).2.steps [e]) := by
  have h :=
    claim2_amended_failure_statuses boomTask 0 ⟨(), []⟩ demoBoomThrown rfl
  exact ⟨rfl, rfl, by simpa using h.1, h.2⟩

/-- **C4.** If, during `Task.run`, the step `s` (reached after the prefix
`ss1` succeeded with value `out`) throws `e`, then the run's final log ends
with a record marked `failure` carrying the raw error `e`, and the run
throws `e` itself when `e` is a `TaskError` (identity re-throw, no double
wrapping) and otherwise a `TaskError` with code `FALL_THROUGH` wrapping
`[e]` and the current context.  The remaining steps `ss2` appear nowhere in
the conclusion: they never run. -/
theorem claim4_step_failure_wrapping (t : Task κ α ε) (v : α)
    (ctx : Context κ α ε) (ss1 ss2 : List (Step κ α ε)) (s : Step κ α ε)
    (out : α) (ctx1 : Context κ α ε) (e : Thrown κ α ε)
    (hsplit : t.steps = ss1 ++ s :: ss2)
    (hpre : runSteps ss1 v (startContext t ctx) = (.ok out, ctx1))
    (hthrow : s.fn out ⟨ctx1.extra,
        updateLast (StepRecord.setInput out) ctx1.steps⟩ = .error e) :
    ∃ front r,
      (Task.run t v ctx).2.steps = front ++ [r] ∧
      r.status = .failure ∧ r.error = some e ∧
      (Task.run t v ctx).1 =
        .error (if e.isTaskError then e
                else .taskError "FALL_THROUGH" (Task.run t v ctx).2.extra
                  (Task.run t v ctx).2.steps [e]) := by
  have hne1 : ctx1.steps ≠ [] := by
    have hl := runSteps_length ss1 v (startContext t ctx)
    rw [hpre] at hl
    intro h0
    rw [h0] at hl
    simp [startContext, hsplit] at hl
    omega
  obtain ⟨F, r0, hFr⟩ : ∃ F r0, ctx1.steps = F ++ [r0] :=
    ⟨ctx1.steps.dropLast, ctx1.steps.getLast hne1,
      (List.dropLast_append_getLast hne1).symm⟩
  have hfinal : Task.run t v ctx =
      (.error (if e.isTaskError then e
               else .taskError "FALL_THROUGH" ctx1.extra
                 (F ++ [((r0.setInput out).setStatus .failure).setError e])
                 [e]),
       ⟨ctx1.extra,
        F ++ [((r0.setInput out).setStatus .failure).setError e]⟩) := by
    rw [Task.run, hsplit, runSteps_append, hpre]
    show runSteps (s :: ss2) out ctx1 = _
    rw [runSteps_cons]
    rw [hFr, updateLast_append] at hthrow
    simp only [hFr, updateLast_append, hthrow]
  refine ⟨F, ((r0.setInput out).setStatus .failure).setError e,
    by rw [hfinal], by simp, by simp, by rw [hfinal]⟩

/-- The first scenario step: `x => "a:" + x`. -/
def stepA : Step Unit String String :=
  ⟨"sa", fun x _ => .ok ("a:" ++ x)⟩

/-- The second scenario step: `y => y + ":b"`. -/
def stepB : Step Unit String String :=
  ⟨"sb", fun y _ => .ok (y ++ ":b")⟩

/-- The C8 scenario task with steps `[x => "a:"+x, y => y+":b"]`. -/
def scenarioTask : Task Unit String String :=
  ⟨"scenario", [stepA, stepB]⟩

/-- Witness for `claim4_step_failure_wrapping`: in the boom scenario step 2
really throws after step 1 succeeded, and the conclusion holds there. -/
theorem claim4_witness :
    boomTask.steps = [demoStep "s1"] ++ demoBoomStep :: [demoStep "s3"] ∧
    ∃ front r,
      (Task.run boomTask 0 ⟨(), []⟩).2.steps = front ++ [r] ∧
      r.status = .failure ∧
      r.error = some (.raw "boom") ∧
      (Task.run boomTask 0 ⟨(), []⟩).1 =
        .error (if (Thrown.raw (κ := Unit) (α := Nat) "boom").isTaskError
                then .raw "boom"
                else .taskError "FALL_THROUGH"
                  (Task.run boomTask 0 ⟨(), []⟩).2.extra
                  (Task.run boomTask 0 ⟨(), []⟩).2.steps [.raw "boom"]) :=
  ⟨rfl, claim4_step_failure_wrapping boomTask 0 ⟨(), []⟩ [demoStep "s1"]
    [demoStep "s3"] demoBoomStep 1 _ (.raw "boom") rfl rfl rfl⟩

/-- **C8.** `Task.run` threads the evolving value strictly in order: if the
steps split as `ss1 ++ ss2` and running the prefix `ss1` from the task's
`input` ends successfully with value `out` and context `ctx1`, the whole
run continues exactly as running `ss2` on input `out` from `ctx1` — so each
step receives the previous step's return value, and the very first step
receives the task's input.  In particular the scenario task with steps
`[x => "a:"+x, y => y+":b"]` on input `"1"` returns output `"a:1:b"`. -/
theorem claim8_sequencing :
    (∀ (κ α ε : Type) (t : Task κ α ε) (v : α) (ctx : Context κ α ε)
        (ss1 ss2 : List (Step κ α ε)) (out : α) (ctx1 : Context κ α ε),
        t.steps = ss1 ++ ss2 →
        runSteps ss1 v (startContext t ctx) = (.ok out, ctx1) →
        Task.run t v ctx = runSteps ss2 out ctx1) ∧
    (Task.run scenarioTask "1" ⟨(), []⟩).1 = .ok "a:1:b" := by
  refine ⟨?_, rfl⟩
  intro κ α ε t v ctx ss1 ss2 out ctx1 hsplit hpre
  rw [Task.run, hsplit, runSteps_append, hpre]

/-- Witness for `claim8_sequencing`: the scenario run really decomposes
after its first step, which produced `"a:1"`. -/
theorem claim8_witness :
    scenarioTask.steps = [stepA] ++ [stepB] ∧
    Task.run scenarioTask "1" ⟨(), []⟩ =
      runSteps [stepB] "a:1"
        (runSteps [stepA] "1" (startContext scenarioTask ⟨(), []⟩)).2 :=
  ⟨rfl, claim8_sequencing.1 Unit String String scenarioTask "1" ⟨(), []⟩
    [stepA] [stepB] "a:1" _ rfl rfl⟩

/-! ## Easy functional claims -/

/-- **C10.** A `Task` built with the `steps` option omitted (`none`) or
empty succeeds at construction, and running it returns the input unchanged
as its output, appending no records to `context.steps` and leaving the
context as it was. -/
theorem claim10_zero_step_task (nm : String) (v : α) (ctx : Context κ α ε) :
    (Task.ofOptions nm (none : Option (List (Step κ α ε)))).steps = [] ∧
    (Task.ofOptions nm (some ([] : List (Step κ α ε)))).steps = [] ∧
    Task.run (Task.ofOptions nm none) v ctx = (.ok v, ctx) ∧
    Task.run (Task.ofOptions nm (some [])) v ctx = (.ok v, ctx) := by
  refine ⟨rfl, rfl, ?_, ?_⟩ <;>
    simp [Task.run, Task.ofOptions, startContext, runSteps]

/-- **C7.** Selector application in `Pipeline.run`: a configuration with a
selector delivers `s(prevOutput, context)` to its task, and a configuration
without a selector (a bare `Task`, or a `{task}` object with no `selector`
key) delivers the accumulated output unchanged; consequently running a
selector configuration is the same as running the selector-less
configuration on the selected value. -/
theorem claim7_selector_application (s : α → Context κ α ε → α)
    (t : Task κ α ε) (rest : List (PipelineConfiguration κ α ε)) (out : α)
    (ctx : Context κ α ε) :
    PipelineConfiguration.taskInput (.withTask (some s) t) out ctx = s out ctx ∧
    PipelineConfiguration.taskInput (.withTask none t) out ctx = out ∧
    PipelineConfiguration.taskInput (.bare t) out ctx = out ∧
    runTasks (.withTask (some s) t :: rest) out ctx =
      runTasks (.withTask none t :: rest) (s out ctx) ctx ∧
    runTasks (.withTask none t :: rest) out ctx =
      runTasks (.bare t :: rest) out ctx :=
  ⟨rfl, rfl, rfl, rfl, rfl⟩

/-! ## Lemmas about `Pipeline.run` -/

/-- Definitional unfolding of one iteration of the task loop. -/
theorem runTasks_cons (c : PipelineConfiguration κ α ε)
    (rest : List (PipelineConfiguration κ α ε)) (v : α)
    (ctx : Context κ α ε) :
    runTasks (c :: rest) v ctx =
      (match (c.taskFn).run (c.taskInput v ctx) ctx with
       | (.ok taskOutput, ctx') => runTasks rest taskOutput ctx'
       | (.error _, ctx') =>
          .error (.pipelineError (failureErrors ctx') ctx')) := rfl

/-- Splitting a run of task configurations: when the first group succeeds
the second group continues from its value and context; when it throws, the
run stops there and the configurations of the second group never execute. -/
theorem runTasks_append (a b : List (PipelineConfiguration κ α ε)) (v : α)
    (ctx : Context κ α ε) :
    runTasks (a ++ b) v ctx =
      (match runTasks a v ctx with
       | .ok (out, ctx') => runTasks b out ctx'
       | .error pe => .error pe) := by
  induction a generalizing v ctx with
  | nil => rfl
  | cons c rest ih =>
    rw [List.cons_append, runTasks_cons, runTasks_cons]
    rcases hr : (c.taskFn).run (c.taskInput v ctx) ctx with ⟨res, ctx'⟩
    cases res with
    | ok o => exact ih o ctx'
    | error e => rfl

/-- `Task.run` never changes the application-specific context fields. -/
theorem Task.run_extra (t : Task κ α ε) (v : α) (ctx : Context κ α ε) :
    (Task.run t v ctx).2.extra = ctx.extra := by
  rw [Task.run, runSteps_extra]
  rfl

/-- `Task.run` only appends to the log: the final log is the initial one
followed by exactly one new record per step of the task. -/
theorem Task.run_appends (t : Task κ α ε) (v : α) (ctx : Context κ α ε) :
    ∃ added, (Task.run t v ctx).2.steps = ctx.steps ++ added ∧
      added.length = t.steps.length := by
  rcases eq_or_ne t.steps [] with h | h
  · refine ⟨[], ?_, by simp [h]⟩
    rw [Task.run, h]
    simp [runSteps, startContext, h]
  · have hPne : t.steps.map
        (fun s => pendingRecord (κ := κ) (α := α) (ε := ε) s.name) ≠ [] := by
      simpa using h
    have hstart : startContext t ctx =
        ⟨ctx.extra,
          (ctx.steps ++
              (t.steps.map fun s => pendingRecord s.name).dropLast) ++
            [(t.steps.map fun s => pendingRecord s.name).getLast hPne]⟩ := by
      rw [startContext, List.append_assoc, List.dropLast_append_getLast]
    obtain ⟨r', h2, -, -⟩ :=
      runSteps_shape t.steps v ctx.extra
        (ctx.steps ++ (t.steps.map fun s => pendingRecord s.name).dropLast)
        ((t.steps.map fun s => pendingRecord s.name).getLast hPne)
    refine ⟨(t.steps.map fun s => pendingRecord s.name).dropLast ++ [r'],
      ?_, ?_⟩
    · rw [Task.run, hstart, h2]
      simp [List.append_assoc]
    · have hpos : 0 < t.steps.length := List.length_pos.2 h
      simp only [List.length_append, List.length_dropLast, List.length_map,
        List.length_cons, List.length_nil]
      omega

/-- A successful `runTasks` preserves the application-specific context
fields. -/
theorem runTasks_extra (ts : List (PipelineConfiguration κ α ε)) (v : α)
    (ctx : Context κ α ε) (out : α) (ctx' : Context κ α ε)
    (h : runTasks ts v ctx = .ok (out, ctx')) : ctx'.extra = ctx.extra := by
  induction ts generalizing v ctx with
  | nil =>
    simp [runTasks] at h
    rw [← h.2]
  | cons c rest ih =>
    rw [runTasks_cons] at h
    rcases hr : (c.taskFn).run (c.taskInput v ctx) ctx with ⟨res, ctxm⟩
    rw [hr] at h
    cases res with
    | error e => simp at h
    | ok o =>
      have hx := ih o ctxm h
      have hy : ctxm.extra = ctx.extra := by
        have hz := Task.run_extra c.taskFn (c.taskInput v ctx) ctx
        rw [hr] at hz
        exact hz
      exact hx.trans hy

/-- A successful `runTasks` appends one block of records per configuration,
in configuration order, each block one record per step of that
configuration's task; and the final output/context are those produced by
the run of the last configuration's task. -/
theorem runTasks_ok_shape (ts : List (PipelineConfiguration κ α ε)) (v : α)
    (ctx : Context κ α ε) (out : α) (ctx' : Context κ α ε)
    (h : runTasks ts v ctx = .ok (out, ctx')) :
    ∃ chunks : List (List (StepRecord κ α ε)),
      chunks.length = ts.length ∧
      ctx'.steps = ctx.steps ++ chunks.flatten ∧
      (∀ i (h1 : i < ts.length) (h2 : i < chunks.length),
        (chunks.get ⟨i, h2⟩).length =
          ((ts.get ⟨i, h1⟩).taskFn).steps.length) ∧
      (∀ hne : ts ≠ [], ∃ cin cctx,
        Task.run ((ts.getLast hne).taskFn) cin cctx = (.ok out, ctx')) ∧
      (ts = [] → out = v ∧ ctx' = ctx) := by
  induction ts generalizing v ctx with
  | nil =>
    simp [runTasks] at h
    refine ⟨[], rfl, by simp [← h.2], ?_, ?_, fun _ => ⟨h.1.symm, h.2.symm⟩⟩
    · intro i h1 h2
      exact absurd h1 (by simp)
    · intro hne
      exact absurd rfl hne
  | cons c rest ih =>
    rw [runTasks_cons] at h
    rcases hr : (c.taskFn).run (c.taskInput v ctx) ctx with ⟨res, ctxm⟩
    rw [hr] at h
    cases res with
    | error e => simp at h
    | ok o =>
      obtain ⟨chunksR, hlenR, hstepsR, hidxR, hlastR, hnilR⟩ := ih o ctxm h
      obtain ⟨added, haddsteps, haddlen⟩ :=
        Task.run_appends c.taskFn (c.taskInput v ctx) ctx
      rw [hr] at haddsteps
      refine ⟨added :: chunksR, by simp [hlenR], ?_, ?_, ?_,
        fun hcontra => absurd hcontra (List.cons_ne_nil c rest)⟩
      · rw [hstepsR, show ctxm.steps = ctx.steps ++ added from haddsteps]
        simp [List.append_assoc]
      · intro i h1 h2
        cases i with
        | zero => simpa using haddlen
        | succ n =>
          have hn := hidxR n (by simpa using h1) (by simpa using h2)
          simpa using hn
      · intro hne
        rcases eq_or_ne rest [] with hrest | hrest
        · subst hrest
          obtain ⟨ho, hc⟩ := hnilR rfl
          refine ⟨c.taskInput v ctx, ctx, ?_⟩
          rw [List.getLast_singleton, hr, ho, hc]
        · obtain ⟨cin, cctx, hlast⟩ := hlastR hrest
          refine ⟨cin, cctx, ?_⟩
          rwa [List.getLast_cons hrest]

/-- **C5.** If the configuration `c` of a pipeline (reached after the
prefix `a` of configurations succeeded with accumulated output `out1` and
shared context `ctx1`) has its task run throw, then `Pipeline.run` throws a
`PipelineError` whose error list is exactly the `error` fields of the
`status === "failure"` entries of the entire accumulated step log
(`failureErrors ctx2`) and whose context is the shared context `ctx2`.  The
remaining configurations `b` appear nowhere in the conclusion: they are
aborted immediately and none of their steps are appended. -/
theorem claim5_pipeline_failure (p : Pipeline κ α ε) (input : α)
    (caller : Context κ α ε) (a b : List (PipelineConfiguration κ α ε))
    (c : PipelineConfiguration κ α ε) (out1 : α) (ctx1 : Context κ α ε)
    (e : Thrown κ α ε) (ctx2 : Context κ α ε)
    (hsplit : p.tasks = a ++ c :: b)
    (hpre : runTasks a input ⟨caller.extra, []⟩ = .ok (out1, ctx1))
    (hfail : Task.run c.taskFn (c.taskInput out1 ctx1) ctx1 =
      (.error e, ctx2)) :
    Pipeline.run p input caller =
      .error (.pipelineError (failureErrors ctx2) ctx2) := by
  rw [Pipeline.run, hsplit, runTasks_append, hpre]
  show runTasks (c :: b) out1 ctx1 = _
  rw [runTasks_cons, hfail]

/-- **C6.** On a fully successful pipeline run, the returned context's step
log is the in-order concatenation of one block of records per task
configuration — each block exactly one record per step of that
configuration's task — and the returned output together with the returned
context are exactly what the run of the last configuration's task
produced. -/
theorem claim6_pipeline_success (p : Pipeline κ α ε) (input : α)
    (caller : Context κ α ε) (out : α) (ctx : Context κ α ε)
    (h : Pipeline.run p input caller = .ok (out, ctx)) :
    ∃ chunks : List (List (StepRecord κ α ε)),
      chunks.length = p.tasks.length ∧
      ctx.steps = chunks.flatten ∧
      (∀ i (h1 : i < p.tasks.length) (h2 : i < chunks.length),
        (chunks.get ⟨i, h2⟩).length =
          ((p.tasks.get ⟨i, h1⟩).taskFn).steps.length) ∧
      (∀ hne : p.tasks ≠ [], ∃ cin cctx,
        Task.run ((p.tasks.getLast hne).taskFn) cin cctx = (.ok out, ctx)) ∧
      (p.tasks = [] → out = input) := by
  rw [Pipeline.run] at h
  obtain ⟨chunks, h1, h2, h3, h4, h5⟩ := runTasks_ok_shape _ _ _ _ _ h
  exact ⟨chunks, h1, by simpa using h2, h3, h4, fun hnil => (h5 hnil).1⟩

/-- **C9.** `Pipeline.run` ignores any `steps` field of the caller-supplied
context: the run is unchanged under replacing the caller's step list, it
equals the run started from the freshly built context (caller's fields,
empty log), and on success the returned context still carries the caller's
application fields — so all records accumulate only in the fresh context
and the caller's object is untouched (the embedding is state-passing, so
the caller's value is never mutated by construction). -/
theorem claim9_fresh_context (p : Pipeline κ α ε) (input : α) (ex : κ)
    (s1 s2 : List (StepRecord κ α ε)) :
    Pipeline.run p input ⟨ex, s1⟩ = Pipeline.run p input ⟨ex, s2⟩ ∧
    Pipeline.run p input ⟨ex, s1⟩ = runTasks p.tasks input ⟨ex, []⟩ ∧
    (∀ out ctx, Pipeline.run p input ⟨ex, s1⟩ = .ok (out, ctx) →
      ctx.extra = ex) := by
  refine ⟨rfl, rfl, fun out ctx h => ?_⟩
  rw [Pipeline.run] at h
  exact runTasks_extra p.tasks input ⟨ex, []⟩ out ctx h

/-! ## Concrete pipelines for the witnesses -/

/-- A one-step task used by the demo pipelines. -/
def demoTask1 : Task Unit Nat String := ⟨"one", [demoStep "u1"]⟩

/-- A one-step task whose only step throws `"boom"`. -/
def failTask : Task Unit Nat String := ⟨"failT", [demoBoomStep]⟩

/-- A two-configuration pipeline that fully succeeds: a bare task followed
by a `{selector, task}` configuration doubling the intermediate output. -/
def demoPipelineOk : Pipeline Unit Nat String :=
  ⟨"pOk", [.bare demoTask1, .withTask (some (fun v _ => v * 2)) demoTask1]⟩

/-- A two-configuration pipeline whose second task throws. -/
def demoPipelineFail : Pipeline Unit Nat String :=
  ⟨"pFail", [.bare demoTask1, .bare failTask]⟩

/-- The context carried by the `PipelineError` of the failing demo
pipeline, extracted from the run. -/
def demoCtxFail : Context Unit Nat String :=
  match Pipeline.run demoPipelineFail 0 ⟨(), []⟩ with
  | .error (.pipelineError _ c) => c
  | .ok _ => ⟨(), []⟩

/-- The context returned by the successful demo pipeline, extracted from
the run. -/
def demoCtxOk : Context Unit Nat String :=
  match Pipeline.run demoPipelineOk 0 ⟨(), []⟩ with
  | .ok (_, c) => c
  | .error _ => ⟨(), []⟩

/-- Witness for `claim5_pipeline_failure`: in the failing demo pipeline the
second configuration's task really throws after the first succeeded, and
the conclusion holds there. -/
theorem claim5_witness :
    demoPipelineFail.tasks =
      [PipelineConfiguration.bare demoTask1] ++
        PipelineConfiguration.bare failTask :: [] ∧
    Pipeline.run demoPipelineFail 0 ⟨(), []⟩ =
      .error (.pipelineError (failureErrors demoCtxFail) demoCtxFail) :=
  ⟨rfl, claim5_pipeline_failure demoPipelineFail 0 ⟨(), []⟩
    [.bare demoTask1] [] (.bare failTask) 1 _ _ demoCtxFail rfl rfl rfl⟩

/-- Witness for `claim6_pipeline_success`: the successful demo pipeline
run returns output `3` (step `0↦1`, selector `1↦2`, step `2↦3`) and its
conclusion holds there. -/
theorem claim6_witness :
    Pipeline.run demoPipelineOk 0 ⟨(), []⟩ = .ok (3, demoCtxOk) ∧
    ∃ chunks : List (List (StepRecord Unit Nat String)),
      chunks.length = demoPipelineOk.tasks.length ∧
      demoCtxOk.steps = chunks.flatten ∧
      (∀ i (h1 : i < demoPipelineOk.tasks.length) (h2 : i < chunks.length),
        (chunks.get ⟨i, h2⟩).length =
          ((demoPipelineOk.tasks.get ⟨i, h1⟩).taskFn).steps.length) ∧
      (∀ hne : demoPipelineOk.tasks ≠ [], ∃ cin cctx,
        Task.run ((demoPipelineOk.tasks.getLast hne).taskFn) cin cctx =
          (.ok 3, demoCtxOk)) ∧
      (demoPipelineOk.tasks = [] → 3 = 0) :=
  ⟨rfl, claim6_pipeline_success demoPipelineOk 0 ⟨(), []⟩ 3 demoCtxOk rfl⟩

/-- A one-step task over a `Bool`-valued application context. -/
def demoTaskBool : Task Bool Nat String :=
  ⟨"oneB", [⟨"u1", fun v _ => .ok (v + 1)⟩]⟩

/-- A one-configuration pipeline over a `Bool`-valued application
context. -/
def demoPipelineBool : Pipeline Bool Nat String :=
  ⟨"pB", [.bare demoTaskBool]⟩

/-- The context returned by the `Bool`-context demo pipeline. -/
def demoCtxBool : Context Bool Nat String :=
  match Pipeline.run demoPipelineBool 5 ⟨true, []⟩ with
  | .ok (_, c) => c
  | .error _ => ⟨true, []⟩

/-- Witness for `claim9_fresh_context`: a caller context carrying a junk
step record yields the same run as one with an empty log, the run
succeeds, and the returned context still carries the caller's `extra`
field. -/
theorem claim9_witness :
    Pipeline.run demoPipelineBool 5 ⟨true, [pendingRecord "junk"]⟩ =
      Pipeline.run demoPipelineBool 5 ⟨true, []⟩ ∧
    Pipeline.run demoPipelineBool 5 ⟨true, [pendingRecord "junk"]⟩ =
      .ok (6, demoCtxBool) ∧
    demoCtxBool.extra = true :=
  ⟨(claim9_fresh_context demoPipelineBool 5 true [pendingRecord "junk"] []).1,
   rfl,
   (claim9_fresh_context demoPipelineBool 5 true [pendingRecord "junk"]
      []).2.2 6 demoCtxBool rfl⟩

end GenericTasks
